import Mathlib

/-!
Verification of the module-graph DFS traversal implemented in
src/webpack.config.js (the `traverse` closure inside the
`UnderstandingModuleGraphPlugin`, lines 34-78).

The JavaScript code is shallowly embedded as follows.

Data model:
- a graph node (`Node`) is either the null root (`Node.root`, modelling the
  JavaScript `null` used as the root of the module graph) or a module
  (`Node.module id resource`); the `id` field models object identity, since
  JavaScript `Map`/`Set` membership for module objects is reference identity,
  and the `resource` field models the `resource` string used for labeling;
- a `Connection` models a `ModuleGraphConnection`: its `module` field is the
  target node (the code only ever reads `c.module`); `connId` distinguishes
  several connections with the same target (multi-edges);
- a `ModuleGraphModule` carries `outgoingConnections`, which in webpack is
  either a `Set` of connections or `undefined`, modelled as
  `Option (List Connection)` (the list order is `Set` insertion order);
- a `Graph` is the `_moduleMap` (`Map<Module, ModuleGraphModule>`), modelled
  as an association list; `mapLookup` models `Map.get`.

Traversal:
- `setAdd`/`jsSet` model `new Set(array)`: insert elements in order, keeping
  the first occurrence of each distinct element;
- `St` is the mutable state of one `dfs()` invocation: the `visited` map
  (as the list of nodes inserted so far, most recent first) and `out`, the
  ordered sequence of `console.log` emission events (the node whose label is
  printed; the printed strings are `out.map labelOf`);
- `visitF` is the recursive `traverse(crtNode)` with explicit fuel so the
  definition is structurally recursive and executable; `Outcome.typeError`
  models the JavaScript TypeError thrown at line 65 when
  `moduleMap.get(crtNode)` returned `undefined` (reading
  `.outgoingConnections` of `undefined`); `Outcome.outOfFuel` is a modelling
  artifact that provably never occurs at the fuel used by `traverse`;
- `stepList` models the `for (const c of children) traverse(c)` loop; a
  thrown TypeError aborts the loop (and the whole traversal), which the
  `| r => r` short-circuit reproduces;
- `traverse g r` runs `visitF` with fuel `g.moduleMap.length + 1`, which is
  proved sufficient (`visit_fuel`);
- `labelOf` models line 47-49:
  `crtNode?.resource ? path.basename(crtNode?.resource) : "ROOT "`;
  `basename` implements the POSIX `path.basename` algorithm of Node.js
  (drop trailing separators, then take the part after the last separator).

`Walk`/`Reach` define finite directed paths along the deduplicated outgoing
edges, used to state reachability properties, and `Closed` states that every
edge target is itself a key of the module map.
-/

namespace ModuleGraphDFS

/-- A graph node: the null root used by the module graph, or a module with an
identity and a resource string. -/
inductive Node where
  | root
  | module (id : Nat) (resource : String)
deriving DecidableEq

/-- A `ModuleGraphConnection`: the code reads only `c.module` (the target of
the arrow); `connId` keeps distinct connection objects distinct. -/
structure Connection where
  connId : Nat
  module : Node
deriving DecidableEq

/-- A `ModuleGraphModule`: `outgoingConnections` is a `Set` of connections or
`undefined` when the node has no children. -/
structure ModuleGraphModule where
  outgoingConnections : Option (List Connection)
deriving DecidableEq

/-- The `_moduleMap` of the compilation, `Map<Module, ModuleGraphModule>`. -/
structure Graph where
  moduleMap : List (Node × ModuleGraphModule)
deriving DecidableEq

/-- `Map.get`: first entry with the requested key, if any. -/
def mapLookup : List (Node × ModuleGraphModule) → Node → Option ModuleGraphModule
  | [], _ => none
  | (k, v) :: rest, n => if n = k then some v else mapLookup rest n

/-- The key set of the module map. -/
def keys (g : Graph) : List Node := g.moduleMap.map Prod.fst

/-- Models `x || []` applied to a value that is a collection or `undefined`. -/
def optList {α : Type} : Option (List α) → List α
  | none => []
  | some l => l

/-- Inserting a list of elements into a JavaScript `Set` one by one, given the
elements already present (`seen`): an element already present is skipped,
otherwise it is appended; iteration order of the resulting `Set` is insertion
order, so the result keeps the first occurrence of each distinct element. -/
def setAdd : List Node → List Node → List Node
  | _, [] => []
  | seen, a :: l => if a ∈ seen then setAdd seen l else a :: setAdd (a :: seen) l

/-- `new Set(l)` as a list in iteration order. -/
def jsSet (l : List Node) : List Node := setAdd [] l

/-- Line 63-68: `new Set(Array.from(mgm.outgoingConnections || [], c => c.module))`,
the deduplicated children of a node whose graph module is `mgm`. -/
def childrenOf (mgm : ModuleGraphModule) : List Node :=
  jsSet ((optList mgm.outgoingConnections).map Connection.module)

/-- The deduplicated outgoing targets of node `n` in graph `g`; `[]` when `n`
is not a key of the module map (such a node has no recorded edges). -/
def targetsOf (g : Graph) (n : Node) : List Node :=
  match mapLookup g.moduleMap n with
  | none => []
  | some mgm => childrenOf mgm

/-- State of one `dfs()` invocation: the `visited` map (most recently visited
node first) and the sequence of emission events in output order. -/
structure St where
  visited : List Node
  out : List Node
deriving DecidableEq

/-- How a traversal step finished: normally, by throwing the TypeError of
line 65 (module map lookup returned `undefined`), or by exhausting the fuel
of the embedding (proved unreachable at the fuel `traverse` uses). -/
inductive Outcome where
  | ok
  | typeError
  | outOfFuel
deriving DecidableEq

/-- The loop `for (const c of children) traverse(c)`: visit each node of the
list in order with `visit1`, stopping if a visit does not finish normally. -/
def stepList (visit1 : Node → St → St × Outcome) : List Node → St → St × Outcome
  | [], s => (s, Outcome.ok)
  | c :: cs, s =>
    match visit1 c s with
    | (s', Outcome.ok) => stepList visit1 cs s'
    | r => r

/-- Lines 41-72, `traverse(crtNode)`, with explicit fuel: return if visited;
mark visited; emit the node; look its graph module up (a missing entry throws
the TypeError of line 65); recurse over the deduplicated children. -/
def visitF (g : Graph) : Nat → Node → St → St × Outcome
  | 0, _, s => (s, Outcome.outOfFuel)
  | fuel + 1, crtNode, s =>
    if crtNode ∈ s.visited then (s, Outcome.ok)
    else
      let s1 : St := ⟨crtNode :: s.visited, s.out ++ [crtNode]⟩
      match mapLookup g.moduleMap crtNode with
      | none => (s1, Outcome.typeError)
      | some mgm => stepList (fun c s2 => visitF g fuel c s2) (childrenOf mgm) s1

/-- Fuel that is provably sufficient: one more than the number of entries of
the module map. -/
def bound (g : Graph) : Nat := g.moduleMap.length + 1

/-- Lines 34-76: one `dfs()` invocation on root `r` with fresh state. -/
def traverse (g : Graph) (r : Node) : St × Outcome := visitF g (bound g) r ⟨[], []⟩

/-- POSIX `path.basename` of Node.js: ignore trailing separators, then take
everything after the last separator. -/
def basename (p : String) : String :=
  String.mk (((p.toList.reverse.dropWhile (fun ch => ch = '/')).takeWhile
    (fun ch => ch ≠ '/')).reverse)

/-- Line 47-49: the printed label of a node,
`crtNode?.resource ? path.basename(crtNode?.resource) : "ROOT "`.
The root has no `resource`, and an empty `resource` string is falsy, so both
print the sentinel. -/
def labelOf : Node → String
  | Node.root => "ROOT "
  | Node.module _ res => if res = "" then "ROOT " else basename res

/-- The printed output of one traversal, in order. -/
def traverseLabels (g : Graph) (r : Node) : List String :=
  ((traverse g r).1.out).map labelOf

/-- A finite directed path from `a` to `b`: the list of nodes it passes
through, each step following a recorded edge. -/
inductive Walk (g : Graph) : Node → Node → List Node → Prop
  | nil (a : Node) : Walk g a a [a]
  | cons {a b c : Node} {p : List Node} :
      b ∈ targetsOf g a → Walk g b c p → Walk g a c (a :: p)

/-- `b` is reachable from `a` by a finite directed path. -/
inductive Reach (g : Graph) : Node → Node → Prop
  | refl (a : Node) : Reach g a a
  | tail {a b c : Node} : Reach g a b → c ∈ targetsOf g b → Reach g a c

/-- Every edge target reachable in one step from a key of the module map is
itself a key: the traversal never looks up a missing entry. -/
def Closed (g : Graph) : Prop :=
  ∀ n ∈ keys g, ∀ t ∈ targetsOf g n, t ∈ keys g

instance decidableClosed (g : Graph) : Decidable (Closed g) :=
  inferInstanceAs (Decidable (∀ n ∈ keys g, ∀ t ∈ targetsOf g n, t ∈ keys g))

/-- Number of keys of the module map not yet visited (termination measure). -/
def unvisited (g : Graph) (vis : List Node) : Nat :=
  (keys g).countP (fun k => decide (k ∉ vis))

/-- Every visited node is either excused by `P` (it is still on the logical
call stack) or fully expanded: all its targets are visited as well. -/
def Expanded (g : Graph) (P : List Node) (s : St) : Prop :=
  ∀ u ∈ s.visited, u ∈ P ∨ ∀ t ∈ targetsOf g u, t ∈ s.visited

/-- There is a path from `r` to `x` all of whose nodes are already emitted,
except possibly `x` itself. -/
def PreW (g : Graph) (r x : Node) (s : St) : Prop :=
  ∃ p, Walk g r x p ∧ ∀ y ∈ p, y ∈ s.out ∨ y = x

/-- An emission sequence in which every emitted node is justified by a path
from the root that lies entirely in the strictly earlier emissions, except
for its own final node. -/
inductive ChainedList (g : Graph) (r : Node) : List Node → Prop
  | nil : ChainedList g r []
  | snoc (O : List Node) (w : Node) :
      ChainedList g r O →
      (∃ p, Walk g r w p ∧ ∀ y ∈ p, y ∈ O ∨ y = w) →
      ChainedList g r (O ++ [w])

/-- Modelled from the spec: the iteration order over the deduplicated children
described in the open question of the design notes, namely first-seen-edge
order: keep each first occurrence, erasing the later duplicates of it. -/
def firstSeen : List Node → List Node
  | [] => []
  | a :: l => a :: firstSeen (l.filter (fun x => x ≠ a))
termination_by l => l.length
decreasing_by simpa using Nat.lt_succ_of_le (List.length_filter_le _ _)

/-- Modelled from the spec: the label contract of section 4.2 read literally;
the root gets the fixed sentinel, and a module gets the last path component
of its identifier, or the identifier itself when it has no path structure. -/
def specLabel : Node → String
  | Node.root => "ROOT "
  | Node.module _ res => if '/' ∈ res.toList then basename res else res

/- Concrete nodes and graphs used by counterexamples and witnesses. -/

/-- Module node `a.js`. -/
def nA : Node := Node.module 1 "a.js"

/-- Module node `b.js`. -/
def nB : Node := Node.module 2 "b.js"

/-- Module node `m.js`, used as a node that is missing from the module map. -/
def nM : Node := Node.module 3 "m.js"

/-- Module node `k.js`. -/
def nK : Node := Node.module 4 "k.js"

/-- Root with one connection to `nM`, and `nM` missing from the map: the
graph form that makes line 65 throw. -/
def g2 : Graph := ⟨[(Node.root, ⟨some [⟨0, nM⟩]⟩)]⟩

/-- Root points at the missing `nM` first and at the present `nK` second. -/
def g3 : Graph := ⟨[(Node.root, ⟨some [⟨0, nM⟩, ⟨1, nK⟩]⟩), (nK, ⟨none⟩)]⟩

/-- A self-loop on `nA` that is unreachable from the root. -/
def g4 : Graph := ⟨[(Node.root, ⟨none⟩), (nA, ⟨some [⟨0, nA⟩]⟩)]⟩

/-- A reachable self-loop on `nA`, shadowed by the missing node `nM` that the
traversal meets first. -/
def g5 : Graph := ⟨[(Node.root, ⟨some [⟨0, nM⟩, ⟨1, nA⟩]⟩), (nA, ⟨some [⟨0, nA⟩]⟩)]⟩

/-- Only the root, no outgoing edges. -/
def gEmpty : Graph := ⟨[(Node.root, ⟨none⟩)]⟩

/-- Root with a reachable self-loop on `nA`; all edge targets are keys. -/
def gCycle : Graph := ⟨[(Node.root, ⟨some [⟨0, nA⟩]⟩), (nA, ⟨some [⟨0, nA⟩]⟩)]⟩

/-- The graph module of the root of `gMulti`. -/
def mgmMulti : ModuleGraphModule := ⟨some [⟨0, nA⟩, ⟨1, nA⟩]⟩

/-- Root with two distinct connections to the same module `nA`. -/
def gMulti : Graph := ⟨[(Node.root, mgmMulti), (nA, ⟨none⟩)]⟩

/-- A chain root to `nA` to `nB`; every path to `nB` passes through `nA`. -/
def gChain : Graph :=
  ⟨[(Node.root, ⟨some [⟨0, nA⟩]⟩), (nA, ⟨some [⟨0, nB⟩]⟩), (nB, ⟨none⟩)]⟩

/-- Same abstract graph as `gChainB`: duplicated connections and an absent
`outgoingConnections` field instead of an empty one. -/
def gChainA : Graph :=
  ⟨[(Node.root, ⟨some [⟨0, nA⟩, ⟨1, nA⟩]⟩), (nA, ⟨none⟩)]⟩

/-- Same abstract graph as `gChainA`, different representation. -/
def gChainB : Graph :=
  ⟨[(Node.root, ⟨some [⟨7, nA⟩]⟩), (nA, ⟨some []⟩)]⟩

/- Basic lemmas about the map, the set construction and the measure. -/

theorem mapLookup_isSome_iff (m : List (Node × ModuleGraphModule)) (n : Node) :
    (mapLookup m n).isSome = true ↔ n ∈ m.map Prod.fst := by
  induction m with
  | nil => simp [mapLookup]
  | cons kv rest ih =>
    obtain ⟨k, v⟩ := kv
    by_cases h : n = k
    · simp [mapLookup, h]
    · simp [mapLookup, h, ih]

theorem mapLookup_eq_none (g : Graph) (n : Node) (h : n ∉ keys g) :
    mapLookup g.moduleMap n = none := by
  rw [← Option.not_isSome_iff_eq_none]
  intro hs
  exact h ((mapLookup_isSome_iff g.moduleMap n).mp hs)

theorem mem_keys_of_lookup (g : Graph) (n : Node) (mgm : ModuleGraphModule)
    (h : mapLookup g.moduleMap n = some mgm) : n ∈ keys g :=
  (mapLookup_isSome_iff g.moduleMap n).mp (by simp [h])

theorem childrenOf_eq_targetsOf (g : Graph) (n : Node) (mgm : ModuleGraphModule)
    (h : mapLookup g.moduleMap n = some mgm) : childrenOf mgm = targetsOf g n := by
  simp [targetsOf, h]

theorem mem_keys_of_targets (g : Graph) (n t : Node) (h : t ∈ targetsOf g n) :
    n ∈ keys g := by
  unfold targetsOf at h
  cases hm : mapLookup g.moduleMap n with
  | none => rw [hm] at h; simp at h
  | some mgm => exact mem_keys_of_lookup g n mgm hm

theorem closed_mem_keys (g : Graph) (hc : Closed g) (n t : Node)
    (h : t ∈ targetsOf g n) : t ∈ keys g :=
  hc n (mem_keys_of_targets g n t h) t h

theorem setAdd_mem : ∀ (l seen : List Node) (x : Node),
    x ∈ setAdd seen l ↔ x ∈ l ∧ x ∉ seen := by
  intro l
  induction l with
  | nil => intro seen x; simp [setAdd]
  | cons a l ih =>
    intro seen x
    by_cases ha : a ∈ seen
    · rw [show setAdd seen (a :: l) = setAdd seen l from by simp [setAdd, ha]]
      rw [ih seen x]
      constructor
      · rintro ⟨h1, h2⟩
        exact ⟨List.mem_cons_of_mem _ h1, h2⟩
      · rintro ⟨h1, h2⟩
        rcases List.mem_cons.mp h1 with rfl | h
        · exact absurd ha h2
        · exact ⟨h, h2⟩
    · rw [show setAdd seen (a :: l) = a :: setAdd (a :: seen) l from by simp [setAdd, ha]]
      constructor
      · intro hx
        rcases List.mem_cons.mp hx with rfl | hx
        · exact ⟨List.mem_cons_self _ _, ha⟩
        · obtain ⟨h1, h2⟩ := (ih (a :: seen) x).mp hx
          exact ⟨List.mem_cons_of_mem _ h1, fun hs => h2 (List.mem_cons_of_mem _ hs)⟩
      · rintro ⟨h1, h2⟩
        rcases List.mem_cons.mp h1 with rfl | hx
        · exact List.mem_cons_self _ _
        · by_cases hxa : x = a
          · exact hxa ▸ List.mem_cons_self _ _
          · refine List.mem_cons_of_mem _ ((ih (a :: seen) x).mpr ⟨hx, ?_⟩)
            intro hs
            rcases List.mem_cons.mp hs with h | h
            · exact hxa h
            · exact h2 h

theorem setAdd_nodup : ∀ (l seen : List Node), (setAdd seen l).Nodup := by
  intro l
  induction l with
  | nil => intro seen; simp [setAdd]
  | cons a l ih =>
    intro seen
    by_cases ha : a ∈ seen
    · simpa [setAdd, if_pos ha] using ih seen
    · have heq : setAdd seen (a :: l) = a :: setAdd (a :: seen) l := by
        simp [setAdd, ha]
      rw [heq]
      refine List.nodup_cons.mpr ⟨?_, ih (a :: seen)⟩
      intro hmem
      exact ((setAdd_mem l (a :: seen) a).mp hmem).2 (List.mem_cons_self a seen)

theorem jsSet_mem (l : List Node) (x : Node) : x ∈ jsSet l ↔ x ∈ l := by
  simp [jsSet, setAdd_mem]

theorem jsSet_nodup (l : List Node) : (jsSet l).Nodup := setAdd_nodup l []

theorem unvisited_le (g : Graph) (vis : List Node) :
    unvisited g vis ≤ g.moduleMap.length := by
  calc unvisited g vis ≤ (keys g).length := List.countP_le_length _
  _ = g.moduleMap.length := by simp [keys]

theorem unvisited_mono (g : Graph) (vis vis' : List Node)
    (h : ∀ x ∈ vis, x ∈ vis') : unvisited g vis' ≤ unvisited g vis := by
  apply List.countP_mono_left
  intro k _ hk
  simp only [decide_eq_true_eq] at hk ⊢
  exact fun hkv => hk (h k hkv)

theorem countP_unvisited_lt : ∀ (l vis : List Node) (n : Node), n ∈ l → n ∉ vis →
    l.countP (fun k => decide (k ∉ n :: vis)) < l.countP (fun k => decide (k ∉ vis)) := by
  intro l
  induction l with
  | nil => intro vis n h; simp at h
  | cons a l ih =>
    intro vis n hmem hnv
    by_cases han : a = n
    · subst han
      rw [List.countP_cons, List.countP_cons]
      have e1 : (if decide (a ∉ a :: vis) = true then 1 else 0) = 0 := by simp
      have e2 : (if decide (a ∉ vis) = true then 1 else 0) = 1 := by simp [hnv]
      rw [e1, e2]
      have hle : l.countP (fun k => decide (k ∉ a :: vis)) ≤
          l.countP (fun k => decide (k ∉ vis)) := by
        apply List.countP_mono_left
        intro k _ hk
        simp only [decide_eq_true_eq, List.mem_cons, not_or] at hk ⊢
        exact hk.2
      omega
    · have hnl : n ∈ l := by
        rcases List.mem_cons.mp hmem with h | h
        · exact absurd h.symm han
        · exact h
      have hpa : (decide (a ∉ n :: vis)) = (decide (a ∉ vis)) := by
        simp only [decide_eq_decide, List.mem_cons, not_or]
        constructor
        · exact fun h => h.2
        · exact fun h => ⟨han, h⟩
      rw [List.countP_cons, List.countP_cons]
      simp only [hpa]
      have := ih vis n hnl hnv
      omega

theorem unvisited_lt (g : Graph) (vis : List Node) (n : Node)
    (hk : n ∈ keys g) (hv : n ∉ vis) :
    unvisited g (n :: vis) < unvisited g vis :=
  countP_unvisited_lt (keys g) vis n hk hv

/- Trace lemma: a call appends a block of new emissions to `out` and pushes
exactly the same block, reversed, onto `visited`. -/

theorem visit_trace (g : Graph) : ∀ fuel : Nat,
    (∀ (n : Node) (s : St), ∃ Δ, (visitF g fuel n s).1.out = s.out ++ Δ ∧
      (visitF g fuel n s).1.visited = Δ.reverse ++ s.visited) ∧
    (∀ (l : List Node) (s : St), ∃ Δ,
      (stepList (fun c s2 => visitF g fuel c s2) l s).1.out = s.out ++ Δ ∧
      (stepList (fun c s2 => visitF g fuel c s2) l s).1.visited =
        Δ.reverse ++ s.visited) := by
  intro fuel
  induction fuel with
  | zero =>
    constructor
    · intro n s
      exact ⟨[], by simp [visitF]⟩
    · intro l s
      cases l with
      | nil => exact ⟨[], by simp [stepList]⟩
      | cons c cs => exact ⟨[], by simp [stepList, visitF]⟩
  | succ fuel ih =>
    obtain ⟨ihF, ihL⟩ := ih
    have hF : ∀ (n : Node) (s : St), ∃ Δ, (visitF g (fuel + 1) n s).1.out = s.out ++ Δ ∧
        (visitF g (fuel + 1) n s).1.visited = Δ.reverse ++ s.visited := by
      intro n s
      by_cases h : n ∈ s.visited
      · exact ⟨[], by simp [visitF, h]⟩
      · cases hm : mapLookup g.moduleMap n with
        | none => exact ⟨[n], by simp [visitF, h, hm]⟩
        | some mgm =>
          have hrw : visitF g (fuel + 1) n s =
              stepList (fun c s2 => visitF g fuel c s2) (childrenOf mgm)
                ⟨n :: s.visited, s.out ++ [n]⟩ := by
            simp [visitF, h, hm]
          obtain ⟨Δ, h1, h2⟩ := ihL (childrenOf mgm) ⟨n :: s.visited, s.out ++ [n]⟩
          refine ⟨n :: Δ, ?_, ?_⟩
          · rw [hrw, h1]; simp
          · rw [hrw, h2]; simp
    refine ⟨hF, ?_⟩
    intro l
    induction l with
    | nil => intro s; exact ⟨[], by simp [stepList]⟩
    | cons c cs ihl =>
      intro s
      obtain ⟨Δ₁, ho₁, hv₁⟩ := hF c s
      rcases hr : visitF g (fuel + 1) c s with ⟨s₂, o⟩
      rw [hr] at ho₁ hv₁
      cases o with
      | ok =>
        have hrw : stepList (fun c s2 => visitF g (fuel + 1) c s2) (c :: cs) s =
            stepList (fun c s2 => visitF g (fuel + 1) c s2) cs s₂ := by
          simp [stepList, hr]
        obtain ⟨Δ₂, ho₂, hv₂⟩ := ihl s₂
        refine ⟨Δ₁ ++ Δ₂, ?_, ?_⟩
        · rw [hrw, ho₂, ho₁]; simp
        · rw [hrw, hv₂, hv₁]; simp
      | typeError =>
        have hrw : stepList (fun c s2 => visitF g (fuel + 1) c s2) (c :: cs) s =
            (s₂, Outcome.typeError) := by
          simp [stepList, hr]
        exact ⟨Δ₁, by rw [hrw]; exact ho₁, by rw [hrw]; exact hv₁⟩
      | outOfFuel =>
        have hrw : stepList (fun c s2 => visitF g (fuel + 1) c s2) (c :: cs) s =
            (s₂, Outcome.outOfFuel) := by
          simp [stepList, hr]
        exact ⟨Δ₁, by rw [hrw]; exact ho₁, by rw [hrw]; exact hv₁⟩

theorem visit_visited_mono (g : Graph) (fuel : Nat) (n : Node) (s : St) :
    ∀ x ∈ s.visited, x ∈ (visitF g fuel n s).1.visited := by
  intro x hx
  obtain ⟨Δ, _, h2⟩ := (visit_trace g fuel).1 n s
  rw [h2]
  exact List.mem_append_right _ hx

theorem step_visited_mono (g : Graph) (fuel : Nat) (l : List Node) (s : St) :
    ∀ x ∈ s.visited, x ∈ (stepList (fun c s2 => visitF g fuel c s2) l s).1.visited := by
  intro x hx
  obtain ⟨Δ, _, h2⟩ := (visit_trace g fuel).2 l s
  rw [h2]
  exact List.mem_append_right _ hx

theorem visit_out_mono (g : Graph) (fuel : Nat) (n : Node) (s : St) :
    ∀ x ∈ s.out, x ∈ (visitF g fuel n s).1.out := by
  intro x hx
  obtain ⟨Δ, h1, _⟩ := (visit_trace g fuel).1 n s
  rw [h1]
  exact List.mem_append_left _ hx

theorem step_out_mono (g : Graph) (fuel : Nat) (l : List Node) (s : St) :
    ∀ x ∈ s.out, x ∈ (stepList (fun c s2 => visitF g fuel c s2) l s).1.out := by
  intro x hx
  obtain ⟨Δ, h1, _⟩ := (visit_trace g fuel).2 l s
  rw [h1]
  exact List.mem_append_left _ hx

/- The visited map is the reverse of the emission sequence, and no node is
ever emitted twice. -/

theorem visit_nodup (g : Graph) : ∀ fuel : Nat,
    (∀ (n : Node) (s : St), s.visited.Nodup → (visitF g fuel n s).1.visited.Nodup) ∧
    (∀ (l : List Node) (s : St), s.visited.Nodup →
      (stepList (fun c s2 => visitF g fuel c s2) l s).1.visited.Nodup) := by
  intro fuel
  induction fuel with
  | zero =>
    constructor
    · intro n s h
      simpa [visitF] using h
    · intro l s h
      cases l with
      | nil => simpa [stepList] using h
      | cons c cs => simpa [stepList, visitF] using h
  | succ fuel ih =>
    obtain ⟨ihF, ihL⟩ := ih
    have hF : ∀ (n : Node) (s : St), s.visited.Nodup →
        (visitF g (fuel + 1) n s).1.visited.Nodup := by
      intro n s hnd
      by_cases h : n ∈ s.visited
      · simpa [visitF, h] using hnd
      · cases hm : mapLookup g.moduleMap n with
        | none => simpa [visitF, h, hm] using List.nodup_cons.mpr ⟨h, hnd⟩
        | some mgm =>
          have hrw : visitF g (fuel + 1) n s =
              stepList (fun c s2 => visitF g fuel c s2) (childrenOf mgm)
                ⟨n :: s.visited, s.out ++ [n]⟩ := by
            simp [visitF, h, hm]
          rw [hrw]
          exact ihL (childrenOf mgm) _ (List.nodup_cons.mpr ⟨h, hnd⟩)
    refine ⟨hF, ?_⟩
    intro l
    induction l with
    | nil => intro s h; simpa [stepList] using h
    | cons c cs ihl =>
      intro s hnd
      rcases hr : visitF g (fuel + 1) c s with ⟨s₂, o⟩
      have hs₂ : s₂.visited.Nodup := by
        have := hF c s hnd
        rwa [hr] at this
      cases o with
      | ok =>
        have hrw : stepList (fun c s2 => visitF g (fuel + 1) c s2) (c :: cs) s =
            stepList (fun c s2 => visitF g (fuel + 1) c s2) cs s₂ := by
          simp [stepList, hr]
        rw [hrw]
        exact ihl s₂ hs₂
      | typeError =>
        have hrw : stepList (fun c s2 => visitF g (fuel + 1) c s2) (c :: cs) s =
            (s₂, Outcome.typeError) := by
          simp [stepList, hr]
        rw [hrw]
        exact hs₂
      | outOfFuel =>
        have hrw : stepList (fun c s2 => visitF g (fuel + 1) c s2) (c :: cs) s =
            (s₂, Outcome.outOfFuel) := by
          simp [stepList, hr]
        rw [hrw]
        exact hs₂

theorem traverse_visited_eq (g : Graph) (r : Node) :
    (traverse g r).1.visited = ((traverse g r).1.out).reverse := by
  obtain ⟨Δ, h1, h2⟩ := (visit_trace g (bound g)).1 r ⟨[], []⟩
  unfold traverse
  rw [show (visitF g (bound g) r ⟨[], []⟩).1.visited = Δ.reverse ++ [] from h2,
    show (visitF g (bound g) r ⟨[], []⟩).1.out = [] ++ Δ from h1]
  simp

theorem traverse_out_nodup (g : Graph) (r : Node) : ((traverse g r).1.out).Nodup := by
  have h := (visit_nodup g (bound g)).1 r ⟨[], []⟩ (by simp)
  have h2 := traverse_visited_eq g r
  unfold traverse at h2
  rw [h2] at h
  exact List.nodup_reverse.mp h

/- Fuel is irrelevant as soon as it exceeds the number of unvisited keys, and
such a run never ends in `outOfFuel`. -/

theorem visit_fuel (g : Graph) : ∀ fuel : Nat,
    (∀ (n : Node) (s : St) (fuel' : Nat), unvisited g s.visited < fuel →
      unvisited g s.visited < fuel' →
      visitF g fuel n s = visitF g fuel' n s ∧
      (visitF g fuel n s).2 ≠ Outcome.outOfFuel) ∧
    (∀ (l : List Node) (s : St) (fuel' : Nat), unvisited g s.visited < fuel →
      unvisited g s.visited < fuel' →
      stepList (fun c s2 => visitF g fuel c s2) l s =
        stepList (fun c s2 => visitF g fuel' c s2) l s ∧
      (stepList (fun c s2 => visitF g fuel c s2) l s).2 ≠ Outcome.outOfFuel) := by
  intro fuel
  induction fuel with
  | zero =>
    constructor
    · intro n s fuel' h _
      exact absurd h (Nat.not_lt_zero _)
    · intro l s fuel' h _
      exact absurd h (Nat.not_lt_zero _)
  | succ fuel ih =>
    obtain ⟨ihF, ihL⟩ := ih
    have hF : ∀ (n : Node) (s : St) (fuel' : Nat), unvisited g s.visited < fuel + 1 →
        unvisited g s.visited < fuel' →
        visitF g (fuel + 1) n s = visitF g fuel' n s ∧
        (visitF g (fuel + 1) n s).2 ≠ Outcome.outOfFuel := by
      intro n s fuel' h h'
      cases fuel' with
      | zero => exact absurd h' (Nat.not_lt_zero _)
      | succ f' =>
        by_cases hv : n ∈ s.visited
        · exact ⟨by simp [visitF, hv], by simp [visitF, hv]⟩
        · cases hm : mapLookup g.moduleMap n with
          | none => exact ⟨by simp [visitF, hv, hm], by simp [visitF, hv, hm]⟩
          | some mgm =>
            have hkeys : n ∈ keys g := mem_keys_of_lookup g n mgm hm
            have hlt : unvisited g (n :: s.visited) < unvisited g s.visited :=
              unvisited_lt g s.visited n hkeys hv
            have hrw1 : visitF g (fuel + 1) n s =
                stepList (fun c s2 => visitF g fuel c s2) (childrenOf mgm)
                  ⟨n :: s.visited, s.out ++ [n]⟩ := by
              simp [visitF, hv, hm]
            have hrw2 : visitF g (f' + 1) n s =
                stepList (fun c s2 => visitF g f' c s2) (childrenOf mgm)
                  ⟨n :: s.visited, s.out ++ [n]⟩ := by
              simp [visitF, hv, hm]
            have ha : unvisited g (n :: s.visited) < fuel := by omega
            have hb : unvisited g (n :: s.visited) < f' := by omega
            have hstep := ihL (childrenOf mgm) ⟨n :: s.visited, s.out ++ [n]⟩ f' ha hb
            exact ⟨hrw1.trans (hstep.1.trans hrw2.symm), hrw1 ▸ hstep.2⟩
    refine ⟨hF, ?_⟩
    intro l
    induction l with
    | nil =>
      intro s fuel' _ _
      exact ⟨by simp [stepList], by simp [stepList]⟩
    | cons c cs ihl =>
      intro s fuel' h h'
      obtain ⟨hhead, hnof⟩ := hF c s fuel' h h'
      rcases hr : visitF g (fuel + 1) c s with ⟨s₂, o⟩
      have hr' : visitF g fuel' c s = (s₂, o) := by rw [← hhead, hr]
      have hmono : unvisited g s₂.visited ≤ unvisited g s.visited := by
        apply unvisited_mono
        intro x hx
        have := visit_visited_mono g (fuel + 1) c s x hx
        rwa [hr] at this
      cases o with
      | ok =>
        have h₁ : stepList (fun c s2 => visitF g (fuel + 1) c s2) (c :: cs) s =
            stepList (fun c s2 => visitF g (fuel + 1) c s2) cs s₂ := by
          simp [stepList, hr]
        have h₂ : stepList (fun c s2 => visitF g fuel' c s2) (c :: cs) s =
            stepList (fun c s2 => visitF g fuel' c s2) cs s₂ := by
          simp [stepList, hr']
        obtain ⟨ht1, ht2⟩ := ihl s₂ fuel' (by omega) (by omega)
        exact ⟨h₁.trans (ht1.trans h₂.symm), h₁ ▸ ht2⟩
      | typeError =>
        have h₁ : stepList (fun c s2 => visitF g (fuel + 1) c s2) (c :: cs) s =
            (s₂, Outcome.typeError) := by
          simp [stepList, hr]
        have h₂ : stepList (fun c s2 => visitF g fuel' c s2) (c :: cs) s =
            (s₂, Outcome.typeError) := by
          simp [stepList, hr']
        exact ⟨h₁.trans h₂.symm, by rw [h₁]; simp⟩
      | outOfFuel =>
        exact absurd (show (visitF g (fuel + 1) c s).2 = Outcome.outOfFuel by
          rw [hr]) hnof

/- On a graph whose edge targets are all keys, a traversal started at a key
never throws the TypeError of line 65. -/

theorem visit_noerr (g : Graph) (hc : Closed g) : ∀ fuel : Nat,
    (∀ (n : Node) (s : St), n ∈ keys g →
      (visitF g fuel n s).2 ≠ Outcome.typeError) ∧
    (∀ (l : List Node) (s : St), (∀ c ∈ l, c ∈ keys g) →
      (stepList (fun c s2 => visitF g fuel c s2) l s).2 ≠ Outcome.typeError) := by
  intro fuel
  induction fuel with
  | zero =>
    constructor
    · intro n s _
      simp [visitF]
    · intro l s _
      cases l with
      | nil => simp [stepList]
      | cons c cs => simp [stepList, visitF]
  | succ fuel ih =>
    obtain ⟨ihF, ihL⟩ := ih
    have hF : ∀ (n : Node) (s : St), n ∈ keys g →
        (visitF g (fuel + 1) n s).2 ≠ Outcome.typeError := by
      intro n s hk
      by_cases hv : n ∈ s.visited
      · simp [visitF, hv]
      · cases hm : mapLookup g.moduleMap n with
        | none =>
          have := (mapLookup_isSome_iff g.moduleMap n).mpr hk
          rw [hm] at this
          simp at this
        | some mgm =>
          have hrw : visitF g (fuel + 1) n s =
              stepList (fun c s2 => visitF g fuel c s2) (childrenOf mgm)
                ⟨n :: s.visited, s.out ++ [n]⟩ := by
            simp [visitF, hv, hm]
          rw [hrw]
          apply ihL
          intro c hcm
          have hct : c ∈ targetsOf g n := by
            rw [← childrenOf_eq_targetsOf g n mgm hm]
            exact hcm
          exact closed_mem_keys g hc n c hct
    refine ⟨hF, ?_⟩
    intro l
    induction l with
    | nil =>
      intro s _
      simp [stepList]
    | cons c cs ihl =>
      intro s hall
      rcases hr : visitF g (fuel + 1) c s with ⟨s₂, o⟩
      cases o with
      | ok =>
        have hrw : stepList (fun c s2 => visitF g (fuel + 1) c s2) (c :: cs) s =
            stepList (fun c s2 => visitF g (fuel + 1) c s2) cs s₂ := by
          simp [stepList, hr]
        rw [hrw]
        exact ihl s₂ (fun x hx => hall x (List.mem_cons_of_mem _ hx))
      | typeError =>
        exact absurd (show (visitF g (fuel + 1) c s).2 = Outcome.typeError by rw [hr])
          (hF c s (hall c (List.mem_cons_self _ _)))
      | outOfFuel =>
        have hrw : stepList (fun c s2 => visitF g (fuel + 1) c s2) (c :: cs) s =
            (s₂, Outcome.outOfFuel) := by
          simp [stepList, hr]
        rw [hrw]
        simp

theorem traverse_ok (g : Graph) (r : Node) (hc : Closed g) (hr : r ∈ keys g) :
    (traverse g r).2 = Outcome.ok := by
  have hfuel : unvisited g ([] : List Node) < bound g := by
    have := unvisited_le g ([] : List Node)
    unfold bound
    omega
  have h1 : (traverse g r).2 ≠ Outcome.outOfFuel :=
    ((visit_fuel g (bound g)).1 r ⟨[], []⟩ (bound g) hfuel hfuel).2
  have h2 : (traverse g r).2 ≠ Outcome.typeError :=
    (visit_noerr g hc (bound g)).1 r ⟨[], []⟩ hr
  cases h : (traverse g r).2 with
  | ok => rfl
  | typeError => exact absurd h h2
  | outOfFuel => exact absurd h h1

/- Paths and reachability. -/

theorem walk_head {g : Graph} {a b : Node} {p : List Node} (h : Walk g a b p) :
    ∃ q, p = a :: q := by
  cases h with
  | nil => exact ⟨[], rfl⟩
  | cons hb hw => exact ⟨_, rfl⟩

theorem walk_snoc {g : Graph} {a b c : Node} {p : List Node}
    (h : Walk g a b p) : c ∈ targetsOf g b → Walk g a c (p ++ [c]) := by
  induction h with
  | nil a => intro hc; exact Walk.cons hc (Walk.nil c)
  | cons hb _ ih => intro hc; exact Walk.cons hb (ih hc)

theorem reach_head {g : Graph} {a b c : Node} (hb : b ∈ targetsOf g a)
    (h : Reach g b c) : Reach g a c := by
  induction h with
  | refl => exact Reach.tail (Reach.refl a) hb
  | tail _ he ih => exact Reach.tail ih he

theorem walk_reach {g : Graph} {a b : Node} {p : List Node} (h : Walk g a b p) :
    Reach g a b := by
  induction h with
  | nil a => exact Reach.refl a
  | cons hb _ ih => exact reach_head hb ih

theorem reach_walk {g : Graph} {a b : Node} (h : Reach g a b) :
    ∃ p, Walk g a b p := by
  induction h with
  | refl => exact ⟨[_], Walk.nil _⟩
  | tail _ he ih =>
    obtain ⟨p, hp⟩ := ih
    exact ⟨p ++ [_], walk_snoc hp he⟩

theorem reach_trans {g : Graph} {a b c : Node} (h1 : Reach g a b)
    (h2 : Reach g b c) : Reach g a c := by
  induction h2 with
  | refl => exact h1
  | tail _ he ih => exact Reach.tail ih he

theorem walk_mem_reach {g : Graph} {a b : Node} {p : List Node}
    (h : Walk g a b p) : ∀ w ∈ p, Reach g a w := by
  induction h with
  | nil a =>
    intro w hw
    rw [List.mem_singleton] at hw
    subst hw
    exact Reach.refl w
  | cons hb _ ih =>
    intro w hwm
    rcases List.mem_cons.mp hwm with rfl | hwm
    · exact Reach.refl w
    · exact reach_head hb (ih w hwm)

theorem reach_start {g : Graph} {r v : Node} (h : Reach g r v) :
    r = v ∨ r ∈ keys g := by
  induction h with
  | refl => exact Or.inl rfl
  | tail _ he ih =>
    rcases ih with rfl | hk
    · exact Or.inr (mem_keys_of_targets g _ _ he)
    · exact Or.inr hk

theorem reach_closed {g : Graph} (V : List Node)
    (hcl : ∀ u ∈ V, ∀ t ∈ targetsOf g u, t ∈ V) {r v : Node}
    (h : Reach g r v) (hr : r ∈ V) : v ∈ V := by
  induction h with
  | refl => exact hr
  | tail _ he ih => exact hcl _ ih _ he

/- Completeness invariant: after a call finishes normally, every visited node
is either still excused by `P` or has all its targets visited, and the
argument node is visited. -/

theorem visit_complete (g : Graph) : ∀ fuel : Nat,
    (∀ (n : Node) (s s' : St), visitF g fuel n s = (s', Outcome.ok) →
      ∀ P : List Node, Expanded g P s → Expanded g P s' ∧ n ∈ s'.visited) ∧
    (∀ (l : List Node) (s s' : St),
      stepList (fun c s2 => visitF g fuel c s2) l s = (s', Outcome.ok) →
      ∀ P : List Node, Expanded g P s → Expanded g P s' ∧ ∀ c ∈ l, c ∈ s'.visited) := by
  intro fuel
  induction fuel with
  | zero =>
    constructor
    · intro n s s' heq
      simp [visitF] at heq
    · intro l s s' heq P hexp
      cases l with
      | nil =>
        simp [stepList] at heq
        subst heq
        exact ⟨hexp, by simp⟩
      | cons c cs => simp [stepList, visitF] at heq
  | succ fuel ih =>
    obtain ⟨ihF, ihL⟩ := ih
    have hF : ∀ (n : Node) (s s' : St), visitF g (fuel + 1) n s = (s', Outcome.ok) →
        ∀ P : List Node, Expanded g P s → Expanded g P s' ∧ n ∈ s'.visited := by
      intro n s s' heq P hexp
      by_cases hv : n ∈ s.visited
      · rw [show visitF g (fuel + 1) n s = (s, Outcome.ok) from by simp [visitF, hv]]
          at heq
        injection heq with h1 _
        subst h1
        exact ⟨hexp, hv⟩
      · cases hm : mapLookup g.moduleMap n with
        | none =>
          rw [show visitF g (fuel + 1) n s =
              (⟨n :: s.visited, s.out ++ [n]⟩, Outcome.typeError) from by
            simp [visitF, hv, hm]] at heq
          injection heq with _ h2
          exact absurd h2 (by simp)
        | some mgm =>
          rw [show visitF g (fuel + 1) n s =
              stepList (fun c s2 => visitF g fuel c s2) (childrenOf mgm)
                ⟨n :: s.visited, s.out ++ [n]⟩ from by simp [visitF, hv, hm]] at heq
          have hexp1 : Expanded g (n :: P) (⟨n :: s.visited, s.out ++ [n]⟩ : St) := by
            intro u hu
            rcases List.mem_cons.mp hu with rfl | hu
            · exact Or.inl (List.mem_cons_self _ _)
            · rcases hexp u hu with hP | ht
              · exact Or.inl (List.mem_cons_of_mem _ hP)
              · exact Or.inr (fun t htm => List.mem_cons_of_mem _ (ht t htm))
          obtain ⟨hexp', hch⟩ := ihL (childrenOf mgm) _ s' heq (n :: P) hexp1
          have hnvis : n ∈ s'.visited := by
            have hmem : n ∈ (⟨n :: s.visited, s.out ++ [n]⟩ : St).visited :=
              List.mem_cons_self _ _
            have h2 := step_visited_mono g fuel (childrenOf mgm)
              ⟨n :: s.visited, s.out ++ [n]⟩ n hmem
            rwa [heq] at h2
          refine ⟨?_, hnvis⟩
          intro u hu
          rcases hexp' u hu with hP | ht
          · rcases List.mem_cons.mp hP with rfl | hP
            · refine Or.inr ?_
              intro t htm
              rw [← childrenOf_eq_targetsOf g u mgm hm] at htm
              exact hch t htm
            · exact Or.inl hP
          · exact Or.inr ht
    refine ⟨hF, ?_⟩
    intro l
    induction l with
    | nil =>
      intro s s' heq P hexp
      simp [stepList] at heq
      subst heq
      exact ⟨hexp, by simp⟩
    | cons c cs ihl =>
      intro s s' heq P hexp
      rcases hr : visitF g (fuel + 1) c s with ⟨s₂, o⟩
      cases o with
      | ok =>
        rw [show stepList (fun c s2 => visitF g (fuel + 1) c s2) (c :: cs) s =
            stepList (fun c s2 => visitF g (fuel + 1) c s2) cs s₂ from by
          simp [stepList, hr]] at heq
        obtain ⟨hexp₂, hc₂⟩ := hF c s s₂ hr P hexp
        obtain ⟨hexp', hcs⟩ := ihl s₂ s' heq P hexp₂
        refine ⟨hexp', ?_⟩
        intro x hx
        rcases List.mem_cons.mp hx with rfl | hx
        · have hmono := step_visited_mono g (fuel + 1) cs s₂ x hc₂
          rwa [heq] at hmono
        · exact hcs x hx
      | typeError =>
        rw [show stepList (fun c s2 => visitF g (fuel + 1) c s2) (c :: cs) s =
            (s₂, Outcome.typeError) from by simp [stepList, hr]] at heq
        injection heq with _ h2
        exact absurd h2 (by simp)
      | outOfFuel =>
        rw [show stepList (fun c s2 => visitF g (fuel + 1) c s2) (c :: cs) s =
            (s₂, Outcome.outOfFuel) from by simp [stepList, hr]] at heq
        injection heq with _ h2
        exact absurd h2 (by simp)

/- Ancestry invariant: every emission is justified by a path from the root
through strictly earlier emissions. -/

theorem visit_chained (g : Graph) (r : Node) : ∀ fuel : Nat,
    (∀ (n : Node) (s : St), ChainedList g r s.out → PreW g r n s →
      ChainedList g r (visitF g fuel n s).1.out) ∧
    (∀ (l : List Node) (s : St), ChainedList g r s.out → (∀ c ∈ l, PreW g r c s) →
      ChainedList g r (stepList (fun c s2 => visitF g fuel c s2) l s).1.out) := by
  intro fuel
  induction fuel with
  | zero =>
    constructor
    · intro n s hch _
      simpa [visitF] using hch
    · intro l s hch _
      cases l with
      | nil => simpa [stepList] using hch
      | cons c cs => simpa [stepList, visitF] using hch
  | succ fuel ih =>
    obtain ⟨ihF, ihL⟩ := ih
    have hF : ∀ (n : Node) (s : St), ChainedList g r s.out → PreW g r n s →
        ChainedList g r (visitF g (fuel + 1) n s).1.out := by
      intro n s hch hpre
      by_cases hv : n ∈ s.visited
      · simpa [visitF, hv] using hch
      · have hch1 : ChainedList g r (s.out ++ [n]) := ChainedList.snoc s.out n hch hpre
        cases hm : mapLookup g.moduleMap n with
        | none => simpa [visitF, hv, hm] using hch1
        | some mgm =>
          rw [show visitF g (fuel + 1) n s =
              stepList (fun c s2 => visitF g fuel c s2) (childrenOf mgm)
                ⟨n :: s.visited, s.out ++ [n]⟩ from by simp [visitF, hv, hm]]
          apply ihL (childrenOf mgm) ⟨n :: s.visited, s.out ++ [n]⟩ hch1
          intro c hcm
          obtain ⟨p, hw, hpm⟩ := hpre
          refine ⟨p ++ [c], walk_snoc hw ?_, ?_⟩
          · rw [← childrenOf_eq_targetsOf g n mgm hm]
            exact hcm
          · intro y hy
            rcases List.mem_append.mp hy with hy | hy
            · rcases hpm y hy with hyo | rfl
              · exact Or.inl (List.mem_append_left _ hyo)
              · exact Or.inl (List.mem_append_right _ (List.mem_singleton.mpr rfl))
            · rw [List.mem_singleton] at hy
              exact Or.inr hy
    refine ⟨hF, ?_⟩
    intro l
    induction l with
    | nil =>
      intro s hch _
      simpa [stepList] using hch
    | cons c cs ihl =>
      intro s hch hall
      rcases hr2 : visitF g (fuel + 1) c s with ⟨s₂, o⟩
      have hch₂ : ChainedList g r s₂.out := by
        have := hF c s hch (hall c (List.mem_cons_self _ _))
        rwa [hr2] at this
      cases o with
      | ok =>
        rw [show stepList (fun c s2 => visitF g (fuel + 1) c s2) (c :: cs) s =
            stepList (fun c s2 => visitF g (fuel + 1) c s2) cs s₂ from by
          simp [stepList, hr2]]
        apply ihl s₂ hch₂
        intro x hx
        obtain ⟨p, hw, hpm⟩ := hall x (List.mem_cons_of_mem _ hx)
        refine ⟨p, hw, ?_⟩
        intro y hy
        rcases hpm y hy with hyo | rfl
        · refine Or.inl ?_
          have := visit_out_mono g (fuel + 1) c s y hyo
          rwa [hr2] at this
        · exact Or.inr rfl
      | typeError =>
        rw [show stepList (fun c s2 => visitF g (fuel + 1) c s2) (c :: cs) s =
            (s₂, Outcome.typeError) from by simp [stepList, hr2]]
        exact hch₂
      | outOfFuel =>
        rw [show stepList (fun c s2 => visitF g (fuel + 1) c s2) (c :: cs) s =
            (s₂, Outcome.outOfFuel) from by simp [stepList, hr2]]
        exact hch₂

theorem traverse_chained (g : Graph) (r : Node) :
    ChainedList g r (traverse g r).1.out := by
  refine (visit_chained g r (bound g)).1 r ⟨[], []⟩ ChainedList.nil ⟨[r], Walk.nil r, ?_⟩
  intro y hy
  rw [List.mem_singleton] at hy
  exact Or.inr hy

theorem chained_decomp {g : Graph} {r : Node} {O : List Node}
    (h : ChainedList g r O) : ∀ (O₁ : List Node) (w : Node) (O₂ : List Node),
    O = O₁ ++ w :: O₂ → ∃ p, Walk g r w p ∧ ∀ y ∈ p, y ∈ O₁ ∨ y = w := by
  induction h with
  | nil =>
    intro O₁ w O₂ heq
    simp at heq
  | snoc O w' hO hW ih =>
    intro O₁ w O₂ heq
    rcases List.eq_nil_or_concat O₂ with rfl | ⟨O₂', a, rfl⟩
    · have hlen : O.length = O₁.length := by
        have := congrArg List.length heq
        simp at this
        omega
      obtain ⟨h1, h2⟩ := List.append_inj heq hlen
      injection h2 with h2a _
      subst h1
      subst h2a
      exact hW
    · have heq2 : O ++ [w'] = (O₁ ++ w :: O₂') ++ [a] := by
        rw [heq]
        simp
      have hlen : O.length = (O₁ ++ w :: O₂').length := by
        have := congrArg List.length heq2
        simp at this
        simp
        omega
      obtain ⟨h1, _⟩ := List.append_inj heq2 hlen
      exact ih O₁ w O₂' h1

/- The traversal depends only on which nodes are keys and on the deduplicated
targets, not on the representation of the module map. -/

theorem visit_congr (g₁ g₂ : Graph)
    (hk : ∀ n, (mapLookup g₁.moduleMap n).isSome = (mapLookup g₂.moduleMap n).isSome)
    (ht : ∀ n, targetsOf g₁ n = targetsOf g₂ n) : ∀ fuel : Nat,
    (∀ (n : Node) (s : St), visitF g₁ fuel n s = visitF g₂ fuel n s) ∧
    (∀ (l : List Node) (s : St), stepList (fun c s2 => visitF g₁ fuel c s2) l s =
      stepList (fun c s2 => visitF g₂ fuel c s2) l s) := by
  intro fuel
  induction fuel with
  | zero =>
    constructor
    · intro n s
      simp [visitF]
    · intro l s
      induction l with
      | nil => simp [stepList]
      | cons c cs ihl =>
        simp [stepList, visitF]
  | succ fuel ih =>
    obtain ⟨ihF, ihL⟩ := ih
    have hF : ∀ (n : Node) (s : St), visitF g₁ (fuel + 1) n s = visitF g₂ (fuel + 1) n s := by
      intro n s
      by_cases hv : n ∈ s.visited
      · simp [visitF, hv]
      · cases hm₁ : mapLookup g₁.moduleMap n with
        | none =>
          have hm₂ : mapLookup g₂.moduleMap n = none := by
            have := hk n
            rw [hm₁] at this
            exact Option.not_isSome_iff_eq_none.mp (by simp [← this])
          simp [visitF, hv, hm₁, hm₂]
        | some mgm₁ =>
          have hm₂ : (mapLookup g₂.moduleMap n).isSome = true := by
            rw [← hk n, hm₁]
            rfl
          obtain ⟨mgm₂, hm₂⟩ := Option.isSome_iff_exists.mp hm₂
          have hchil : childrenOf mgm₁ = childrenOf mgm₂ := by
            rw [childrenOf_eq_targetsOf g₁ n mgm₁ hm₁,
              childrenOf_eq_targetsOf g₂ n mgm₂ hm₂]
            exact ht n
          rw [show visitF g₁ (fuel + 1) n s =
              stepList (fun c s2 => visitF g₁ fuel c s2) (childrenOf mgm₁)
                ⟨n :: s.visited, s.out ++ [n]⟩ from by simp [visitF, hv, hm₁]]
          rw [show visitF g₂ (fuel + 1) n s =
              stepList (fun c s2 => visitF g₂ fuel c s2) (childrenOf mgm₂)
                ⟨n :: s.visited, s.out ++ [n]⟩ from by simp [visitF, hv, hm₂]]
          rw [← hchil]
          exact ihL (childrenOf mgm₁) _
    refine ⟨hF, ?_⟩
    intro l
    induction l with
    | nil =>
      intro s
      simp [stepList]
    | cons c cs ihl =>
      intro s
      rcases hr : visitF g₁ (fuel + 1) c s with ⟨s₂, o⟩
      have hr' : visitF g₂ (fuel + 1) c s = (s₂, o) := by
        rw [← hF c s, hr]
      cases o with
      | ok =>
        rw [show stepList (fun c s2 => visitF g₁ (fuel + 1) c s2) (c :: cs) s =
            stepList (fun c s2 => visitF g₁ (fuel + 1) c s2) cs s₂ from by
          simp [stepList, hr]]
        rw [show stepList (fun c s2 => visitF g₂ (fuel + 1) c s2) (c :: cs) s =
            stepList (fun c s2 => visitF g₂ (fuel + 1) c s2) cs s₂ from by
          simp [stepList, hr']]
        exact ihl s₂
      | typeError =>
        rw [show stepList (fun c s2 => visitF g₁ (fuel + 1) c s2) (c :: cs) s =
            (s₂, Outcome.typeError) from by simp [stepList, hr]]
        rw [show stepList (fun c s2 => visitF g₂ (fuel + 1) c s2) (c :: cs) s =
            (s₂, Outcome.typeError) from by simp [stepList, hr']]
      | outOfFuel =>
        rw [show stepList (fun c s2 => visitF g₁ (fuel + 1) c s2) (c :: cs) s =
            (s₂, Outcome.outOfFuel) from by simp [stepList, hr]]
        rw [show stepList (fun c s2 => visitF g₂ (fuel + 1) c s2) (c :: cs) s =
            (s₂, Outcome.outOfFuel) from by simp [stepList, hr']]

/- Corollaries used to settle the claims. -/

theorem traverse_reach_mem (g : Graph) (r v : Node) (hc : Closed g)
    (hr : r ∈ keys g) (hv : Reach g r v) : v ∈ (traverse g r).1.out := by
  have hok := traverse_ok g r hc hr
  rcases hT : traverse g r with ⟨s', o⟩
  rw [hT] at hok
  simp only at hok
  subst hok
  have heq : visitF g (bound g) r ⟨[], []⟩ = (s', Outcome.ok) := hT
  obtain ⟨hexp, hrv⟩ := (visit_complete g (bound g)).1 r ⟨[], []⟩ s' heq []
    (by intro u hu; simp at hu)
  have hclosure : ∀ u ∈ s'.visited, ∀ t ∈ targetsOf g u, t ∈ s'.visited := by
    intro u hu t htm
    rcases hexp u hu with hP | hdone
    · simp at hP
    · exact hdone t htm
  have hvis : v ∈ s'.visited := reach_closed s'.visited hclosure hv hrv
  have hveq := traverse_visited_eq g r
  rw [hT] at hveq
  simp only at hveq
  rw [hveq] at hvis
  exact List.mem_reverse.mp hvis

theorem traverse_count_one (g : Graph) (r v : Node) (hc : Closed g)
    (hr : r ∈ keys g) (hv : Reach g r v) : ((traverse g r).1.out).count v = 1 := by
  have hmem := traverse_reach_mem g r v hc hr hv
  have hnd := traverse_out_nodup g r
  have h1 := List.nodup_iff_count_le_one.mp hnd v
  have h2 : 0 < ((traverse g r).1.out).count v := List.count_pos_iff.mpr hmem
  omega

/- Facts about `basename` and the set order. -/

theorem dropWhile_of_head {p : Char → Bool} (l : List Char)
    (h : ∀ x ∈ l, p x = false) : l.dropWhile p = l := by
  cases l with
  | nil => rfl
  | cons a t =>
    rw [List.dropWhile_cons, h a (List.mem_cons_self _ _)]
    simp

theorem takeWhile_of_all {p : Char → Bool} : ∀ l : List Char,
    (∀ x ∈ l, p x = true) → l.takeWhile p = l := by
  intro l
  induction l with
  | nil => intro _; rfl
  | cons a t ih =>
    intro h
    rw [List.takeWhile_cons, h a (List.mem_cons_self _ _)]
    simp only [if_true]
    rw [ih (fun x hx => h x (List.mem_cons_of_mem _ hx))]

theorem basename_no_slash (res : String) (hs : '/' ∉ res.toList) :
    basename res = res := by
  unfold basename
  rw [dropWhile_of_head _ (by
    intro x hx
    rw [List.mem_reverse] at hx
    simp only [decide_eq_false_iff_not]
    intro hcontra
    exact hs (hcontra ▸ hx))]
  rw [takeWhile_of_all _ (by
    intro x hx
    rw [List.mem_reverse] at hx
    simp only [decide_eq_true_eq]
    intro hcontra
    exact hs (hcontra ▸ hx))]
  rw [List.reverse_reverse]
  cases res with
  | mk data => rfl

theorem setAdd_eq_firstSeen : ∀ (l seen : List Node),
    setAdd seen l = firstSeen (l.filter (fun x => x ∉ seen)) := by
  intro l
  induction l with
  | nil =>
    intro seen
    simp [setAdd, firstSeen]
  | cons a l ih =>
    intro seen
    by_cases ha : a ∈ seen
    · rw [show setAdd seen (a :: l) = setAdd seen l from by simp [setAdd, ha]]
      rw [show (a :: l).filter (fun x => x ∉ seen) = l.filter (fun x => x ∉ seen)
        from by simp [List.filter_cons, ha]]
      exact ih seen
    · rw [show setAdd seen (a :: l) = a :: setAdd (a :: seen) l from by
        simp [setAdd, ha]]
      rw [show (a :: l).filter (fun x => x ∉ seen) =
          a :: l.filter (fun x => x ∉ seen) from by simp [List.filter_cons, ha]]
      rw [show firstSeen (a :: l.filter (fun x => x ∉ seen)) =
          a :: firstSeen ((l.filter (fun x => x ∉ seen)).filter (fun x => x ≠ a))
        from by rw [firstSeen]]
      have hff : (l.filter (fun x => x ∉ seen)).filter (fun x => x ≠ a) =
          l.filter (fun x => x ∉ a :: seen) := by
        rw [List.filter_filter]
        apply List.filter_congr
        intro x _
        by_cases hx1 : x = a
        · simp [hx1]
        · by_cases hx2 : x ∈ seen
          · simp [hx1, hx2]
          · simp [hx1, hx2]
      rw [hff, ← ih (a :: seen)]

theorem jsSet_eq_firstSeen (l : List Node) : jsSet l = firstSeen l := by
  have h := setAdd_eq_firstSeen l []
  rw [show l.filter (fun x => x ∉ ([] : List Node)) = l from by
    apply List.filter_eq_self.mpr
    intro x _
    simp] at h
  exact h

/-! Claim theorems. -/

/-- C1, counterexample: the claim quantifies over every finite graph, but in
`g3` the node `nK` is reachable from the root by the one-edge path
`[root, nK]`, yet the output of `traverse g3 root` contains it zero times:
the traversal throws the TypeError of line 65 on the earlier child `nM`,
which is absent from the module map, before ever reaching `nK`. -/
theorem c1_counterexample :
    Walk g3 Node.root nK [Node.root, nK] ∧
    ((traverse g3 Node.root).1.out).count nK = 0 ∧
    (traverse g3 Node.root).2 = Outcome.typeError :=
  ⟨Walk.cons (by decide) (Walk.nil nK), by decide, by decide⟩

/-- C1, amended: on every finite graph in which each edge target recorded for
a key of the module map is itself a key (`Closed`), every node reachable from
the root `r` by a finite directed path is emitted exactly once by
`traverse g r`. -/
theorem c1_amended (g : Graph) (r v : Node) (hc : Closed g) (p : List Node)
    (hw : Walk g r v p) : ((traverse g r).1.out).count v = 1 := by
  by_cases hr : r ∈ keys g
  · exact traverse_count_one g r v hc hr (walk_reach hw)
  · cases hw with
    | nil =>
      have hm : mapLookup g.moduleMap r = none := mapLookup_eq_none g r hr
      rw [show traverse g r = (⟨[r], [r]⟩, Outcome.typeError) from by
        unfold traverse bound
        simp [visitF, hm]]
      simp
    | cons hb _ =>
      exact absurd (mem_keys_of_targets g r _ hb) hr

/-- C1, witness for the amended theorem on the closed chain graph. -/
theorem c1_witness :
    (Closed gChain ∧ Walk gChain Node.root nB [Node.root, nA, nB]) ∧
    ((traverse gChain Node.root).1.out).count nB = 1 := by
  have hcl : Closed gChain := by decide
  have hw : Walk gChain Node.root nB [Node.root, nA, nB] :=
    Walk.cons (by decide) (Walk.cons (by decide) (Walk.nil nB))
  exact ⟨⟨hcl, hw⟩, c1_amended gChain Node.root nB hcl _ hw⟩

/-- C2, counterexample: `g2` is well formed in the sense of the data model of
the spec (its root is a key, and the only node missing from the key set, `nM`,
has no outgoing edges), the root is visited and the entry of its child `nM`
is absent from the module map; the claim says this is treated as an empty
outgoing set and traversal completes normally, but the code instead throws
the TypeError of line 65. -/
theorem c2_counterexample :
    Node.root ∈ keys g2 ∧ nM ∉ keys g2 ∧
    (traverse g2 Node.root).2 = Outcome.typeError := by decide

/-- C2, amended: a visited node that is present in the module map with an
`undefined` set of outgoing connections is treated as having an empty
outgoing set (the `|| []` of line 65); but only when every edge target of a
key is itself a key (and the start node is a key) does the traversal complete
normally; a node absent from the map makes it throw, as the counterexample
shows. -/
theorem c2_amended :
    (∀ (g : Graph) (n : Node) (mgm : ModuleGraphModule),
      mapLookup g.moduleMap n = some mgm → mgm.outgoingConnections = none →
      targetsOf g n = []) ∧
    (∀ (g : Graph) (r : Node), Closed g → r ∈ keys g →
      (traverse g r).2 = Outcome.ok) := by
  constructor
  · intro g n mgm hm hnone
    simp [targetsOf, hm, childrenOf, hnone, optList, jsSet, setAdd]
  · intro g r hc hr
    exact traverse_ok g r hc hr

/-- C2, witness for the amended theorem on the one-node graph whose root has
an `undefined` outgoing set. -/
theorem c2_witness :
    (mapLookup gEmpty.moduleMap Node.root = some ⟨none⟩ ∧
      targetsOf gEmpty Node.root = []) ∧
    (Closed gEmpty ∧ Node.root ∈ keys gEmpty ∧
      (traverse gEmpty Node.root).2 = Outcome.ok) :=
  ⟨⟨by decide, c2_amended.1 gEmpty Node.root ⟨none⟩ (by decide) rfl⟩,
    ⟨by decide, by decide, c2_amended.2 gEmpty Node.root (by decide) (by decide)⟩⟩

/-- C3, counterexample: the claim quantifies over every finite graph that
contains a cycle. In `g4` the node `nA` has a self-loop but is unreachable
from the root, and is visited zero times, not exactly once. In `g5` the
self-loop on `nA` is even reachable from the root, and `nA` is still visited
zero times, because the traversal throws on the missing node `nM` first. -/
theorem c3_counterexample :
    (Closed g4 ∧ Walk g4 nA nA [nA, nA] ∧
      ((traverse g4 Node.root).1.out).count nA = 0) ∧
    (Walk g5 nA nA [nA, nA] ∧ Reach g5 Node.root nA ∧
      ((traverse g5 Node.root).1.out).count nA = 0) :=
  ⟨⟨by decide, Walk.cons (by decide) (Walk.nil nA), by decide⟩,
    ⟨Walk.cons (by decide) (Walk.nil nA),
      Reach.tail (Reach.refl Node.root) (by decide), by decide⟩⟩

/-- C3, amended: on a closed graph, for a cycle (a closed walk of length at
least two, which covers both self-loops and longer cycles) whose node `v` is
reachable from the root, the traversal terminates normally and visits every
node of the cycle exactly once; the visited check of line 42-44 prevents any
re-entry. -/
theorem c3_amended (g : Graph) (r v : Node) (p : List Node) (hc : Closed g)
    (hcy : Walk g v v p) (hlen : 2 ≤ p.length) (hr : Reach g r v) :
    (traverse g r).2 = Outcome.ok ∧
    ∀ w ∈ p, ((traverse g r).1.out).count w = 1 := by
  have hvk : v ∈ keys g := by
    cases hcy with
    | nil => simp at hlen
    | cons hb _ => exact mem_keys_of_targets g v _ hb
  have hrk : r ∈ keys g := by
    rcases reach_start hr with rfl | hk
    · exact hvk
    · exact hk
  refine ⟨traverse_ok g r hc hrk, ?_⟩
  intro w hwm
  exact traverse_count_one g r w hc hrk (reach_trans hr (walk_mem_reach hcy w hwm))

/-- C3, witness for the amended theorem on a reachable self-loop. -/
theorem c3_witness :
    (Closed gCycle ∧ Walk gCycle nA nA [nA, nA] ∧
      2 ≤ ([nA, nA] : List Node).length ∧ Reach gCycle Node.root nA) ∧
    ((traverse gCycle Node.root).2 = Outcome.ok ∧
      ∀ w ∈ [nA, nA], ((traverse gCycle Node.root).1.out).count w = 1) := by
  have hcl : Closed gCycle := by decide
  have hcy : Walk gCycle nA nA [nA, nA] := Walk.cons (by decide) (Walk.nil nA)
  have hre : Reach gCycle Node.root nA := Reach.tail (Reach.refl Node.root) (by decide)
  exact ⟨⟨hcl, hcy, by decide, hre⟩,
    c3_amended gCycle Node.root nA [nA, nA] hcl hcy (by decide) hre⟩

/-- C4: when the connection list of node `A` records the target `B` two or
more times (two or more distinct edges to the same target), the deduplicated
children of `A` contain `B` exactly once, and in every traversal `B` is
emitted at most once. -/
theorem c4_multi_edge (g : Graph) (A B : Node) (mgm : ModuleGraphModule)
    (hm : mapLookup g.moduleMap A = some mgm)
    (h2 : 2 ≤ ((optList mgm.outgoingConnections).map Connection.module).count B) :
    (targetsOf g A).count B = 1 ∧
    ∀ r : Node, ((traverse g r).1.out).count B ≤ 1 := by
  constructor
  · have hmem : B ∈ (optList mgm.outgoingConnections).map Connection.module :=
      List.count_pos_iff.mp (by omega)
    have htg : targetsOf g A =
        jsSet ((optList mgm.outgoingConnections).map Connection.module) := by
      simp [targetsOf, hm, childrenOf]
    rw [htg]
    have hnd := jsSet_nodup ((optList mgm.outgoingConnections).map Connection.module)
    have hmem2 := (jsSet_mem ((optList mgm.outgoingConnections).map Connection.module)
      B).mpr hmem
    have hle := List.nodup_iff_count_le_one.mp hnd B
    have hge := List.count_pos_iff.mpr hmem2
    omega
  · intro r
    exact List.nodup_iff_count_le_one.mp (traverse_out_nodup g r) B

/-- C4, witness on the graph whose root has two connections to `nA`. -/
theorem c4_witness :
    (mapLookup gMulti.moduleMap Node.root = some mgmMulti ∧
      2 ≤ ((optList mgmMulti.outgoingConnections).map Connection.module).count nA) ∧
    ((targetsOf gMulti Node.root).count nA = 1 ∧
      ∀ r : Node, ((traverse gMulti r).1.out).count nA ≤ 1) :=
  ⟨⟨by decide, by decide⟩,
    c4_multi_edge gMulti Node.root nA mgmMulti (by decide) (by decide)⟩

/-- C5: pre-order. For an edge from `u` to `v` such that every finite
directed path from the root `r` to `v` passes through `u` (with `u` distinct
from `v`), whenever `v` is emitted at all, `u` is emitted strictly earlier,
so the label of `u` precedes the label of `v` in the printed output. -/
theorem c5_preorder (g : Graph) (r u v : Node)
    (hedge : v ∈ targetsOf g u)
    (honly : ∀ p, Walk g r v p → u ∈ p) (hne : u ≠ v)
    (hv : v ∈ (traverse g r).1.out) :
    ∃ O₁ O₂, (traverse g r).1.out = O₁ ++ v :: O₂ ∧ u ∈ O₁ ∧
      traverseLabels g r = O₁.map labelOf ++ labelOf v :: O₂.map labelOf ∧
      labelOf u ∈ O₁.map labelOf := by
  obtain ⟨O₁, O₂, hsplit⟩ := List.append_of_mem hv
  obtain ⟨p, hw, hpm⟩ := chained_decomp (traverse_chained g r) O₁ v O₂ hsplit
  have hu : u ∈ O₁ := by
    rcases hpm u (honly p hw) with h | h
    · exact h
    · exact absurd h hne
  refine ⟨O₁, O₂, hsplit, hu, ?_, List.mem_map_of_mem labelOf hu⟩
  rw [traverseLabels, hsplit]
  simp

/-- C5, witness on the chain graph: every path from the root to `nB` passes
through `nA`, and indeed `nA` is emitted before `nB`. -/
theorem c5_witness :
    (nB ∈ targetsOf gChain nA ∧ nA ≠ nB ∧ nB ∈ (traverse gChain Node.root).1.out) ∧
    (∃ O₁ O₂, (traverse gChain Node.root).1.out = O₁ ++ nB :: O₂ ∧ nA ∈ O₁ ∧
      traverseLabels gChain Node.root =
        O₁.map labelOf ++ labelOf nB :: O₂.map labelOf ∧
      labelOf nA ∈ O₁.map labelOf) := by
  have honly : ∀ p, Walk gChain Node.root nB p → nA ∈ p := by
    intro p hw
    cases hw with
    | cons hb hw' =>
      rw [show targetsOf gChain Node.root = [nA] from by decide] at hb
      rw [List.mem_singleton] at hb
      subst hb
      obtain ⟨q, rfl⟩ := walk_head hw'
      exact List.mem_cons_of_mem _ (List.mem_cons_self _ _)
  exact ⟨⟨by decide, by decide, by decide⟩,
    c5_preorder gChain Node.root nA nB (by decide) honly (by decide) (by decide)⟩

/-- C6: for every graph, the first printed element of `traverse g root` is
the fixed sentinel label `"ROOT "` (the root is emitted at line 47-49 before
its graph module is even looked up, so this holds regardless of graph shape,
even when the traversal later throws); and on the graph containing only the
root with no outgoing edges, the output is exactly the one-element sequence
of the sentinel and the traversal completes normally. -/
theorem c6_root_label :
    (∀ g : Graph, ∃ rest, traverseLabels g Node.root = "ROOT " :: rest) ∧
    traverseLabels gEmpty Node.root = ["ROOT "] ∧
    (traverse gEmpty Node.root).2 = Outcome.ok := by
  refine ⟨?_, by decide, by decide⟩
  intro g
  cases hm : mapLookup g.moduleMap Node.root with
  | none =>
    refine ⟨[], ?_⟩
    rw [traverseLabels]
    rw [show traverse g Node.root =
        (⟨[Node.root], [Node.root]⟩, Outcome.typeError) from by
      unfold traverse bound
      simp [visitF, hm]]
    simp [labelOf]
  | some mgm =>
    have hrw : traverse g Node.root =
        stepList (fun c s2 => visitF g g.moduleMap.length c s2) (childrenOf mgm)
          ⟨[Node.root], [Node.root]⟩ := by
      unfold traverse bound
      simp [visitF, hm]
    obtain ⟨Δ, h1, _⟩ := (visit_trace g g.moduleMap.length).2 (childrenOf mgm)
      ⟨[Node.root], [Node.root]⟩
    refine ⟨Δ.map labelOf, ?_⟩
    rw [traverseLabels, hrw, h1]
    simp [labelOf]

/-- C7, counterexample: a module node whose opaque identifier is the empty
string. The identifier has no path structure, so by the claim its label
should be the identifier itself (the empty string); but an empty `resource`
is falsy in JavaScript, so line 47-49 prints the root sentinel instead. -/
theorem c7_counterexample :
    labelOf (Node.module 0 "") = "ROOT " ∧ specLabel (Node.module 0 "") = "" ∧
    labelOf (Node.module 0 "") ≠ specLabel (Node.module 0 "") := by decide

/-- C7, amended: the root is labeled with the fixed sentinel; a module node
with a nonempty identifier is labeled with the last path component of the
identifier (POSIX basename), which is the identifier itself when it contains
no separator; a module node with an empty identifier is labeled with the
sentinel as well, since an empty string is falsy. -/
theorem c7_amended :
    labelOf Node.root = "ROOT " ∧
    (∀ i : Nat, labelOf (Node.module i "") = "ROOT ") ∧
    (∀ (i : Nat) (res : String), res ≠ "" →
      labelOf (Node.module i res) = basename res) ∧
    (∀ (i : Nat) (res : String), res ≠ "" → '/' ∉ res.toList →
      labelOf (Node.module i res) = res) := by
  refine ⟨rfl, fun i => by simp [labelOf], fun i res h => by simp [labelOf, h], ?_⟩
  intro i res h hs
  rw [show labelOf (Node.module i res) = basename res from by simp [labelOf, h]]
  exact basename_no_slash res hs

/-- C7, witness: a path-structured identifier gets its basename, and an
identifier with no separator is kept as is. -/
theorem c7_witness :
    (("src/a.js" : String) ≠ "" ∧
      labelOf (Node.module 0 "src/a.js") = basename ("src/a.js")) ∧
    (("main" : String) ≠ "" ∧ '/' ∉ ("main" : String).toList ∧
      labelOf (Node.module 1 "main") = "main") :=
  ⟨⟨by decide, c7_amended.2.2.1 0 "src/a.js" (by decide)⟩,
    ⟨by decide, by decide, c7_amended.2.2.2 1 "main" (by decide) (by decide)⟩⟩

/-- C8: the traversal is a deterministic function of the abstract graph: two
module maps that agree on which nodes are keys and on the deduplicated
targets of every node produce identical traversals (identical emission
sequences, states and outcomes) for every root. Two invocations on the very
same graph are the special case of reflexive agreement, and the iteration
order over the deduplicated children is fixed by the graph alone. -/
theorem c8_deterministic (g₁ g₂ : Graph) (r : Node)
    (hk : ∀ n, (mapLookup g₁.moduleMap n).isSome = (mapLookup g₂.moduleMap n).isSome)
    (ht : ∀ n, targetsOf g₁ n = targetsOf g₂ n) :
    traverse g₁ r = traverse g₂ r := by
  have hb₁ : unvisited g₁ ([] : List Node) < bound g₁ := by
    have := unvisited_le g₁ ([] : List Node)
    unfold bound
    omega
  have hb₂ : unvisited g₂ ([] : List Node) < bound g₂ := by
    have := unvisited_le g₂ ([] : List Node)
    unfold bound
    omega
  have hB₁ : unvisited g₁ ([] : List Node) < bound g₁ + bound g₂ := by omega
  have hB₂ : unvisited g₂ ([] : List Node) < bound g₁ + bound g₂ := by omega
  unfold traverse
  calc visitF g₁ (bound g₁) r ⟨[], []⟩
      = visitF g₁ (bound g₁ + bound g₂) r ⟨[], []⟩ :=
        ((visit_fuel g₁ (bound g₁)).1 r ⟨[], []⟩ (bound g₁ + bound g₂) hb₁ hB₁).1
    _ = visitF g₂ (bound g₁ + bound g₂) r ⟨[], []⟩ :=
        (visit_congr g₁ g₂ hk ht (bound g₁ + bound g₂)).1 r ⟨[], []⟩
    _ = visitF g₂ (bound g₂) r ⟨[], []⟩ :=
        ((visit_fuel g₂ (bound g₁ + bound g₂)).1 r ⟨[], []⟩ (bound g₂) hB₂ hb₂).1

/-- C8, witness: `gChainA` (duplicated connections, absent outgoing set on
`nA`) and `gChainB` (a single connection, an empty outgoing set on `nA`)
represent the same abstract graph and traverse identically. -/
theorem c8_witness :
    (∀ n, (mapLookup gChainA.moduleMap n).isSome =
      (mapLookup gChainB.moduleMap n).isSome) ∧
    (∀ n, targetsOf gChainA n = targetsOf gChainB n) ∧
    traverse gChainA Node.root = traverse gChainB Node.root := by
  have hk : ∀ n, (mapLookup gChainA.moduleMap n).isSome =
      (mapLookup gChainB.moduleMap n).isSome := by
    intro n
    by_cases h1 : n = Node.root
    · subst h1
      decide
    · by_cases h2 : n = nA
      · subst h2
        decide
      · have hA : mapLookup gChainA.moduleMap n = none := by
          simp [gChainA, mapLookup, h1, h2]
        have hB : mapLookup gChainB.moduleMap n = none := by
          simp [gChainB, mapLookup, h1, h2]
        rw [hA, hB]
  have ht : ∀ n, targetsOf gChainA n = targetsOf gChainB n := by
    intro n
    by_cases h1 : n = Node.root
    · subst h1
      decide
    · by_cases h2 : n = nA
      · subst h2
        decide
      · have hA : mapLookup gChainA.moduleMap n = none := by
          simp [gChainA, mapLookup, h1, h2]
        have hB : mapLookup gChainB.moduleMap n = none := by
          simp [gChainB, mapLookup, h1, h2]
        simp [targetsOf, hA, hB]
  exact ⟨hk, ht, c8_deterministic gChainA gChainB Node.root hk ht⟩

/-- C9: state-machine invariants of one traversal invocation. No node is
ever emitted twice (the emission sequence has no duplicates, so a node is
never entered twice past the visited check), and the visited map only grows:
every call extends it by a prefix of newly visited nodes and never clears a
flag, so each node moves monotonically from unvisited to visited with no
reversal and no third state. -/
theorem c9_invariants :
    (∀ (g : Graph) (r : Node), ((traverse g r).1.out).Nodup) ∧
    (∀ (g : Graph) (fuel : Nat) (n : Node) (s : St),
      ∃ Δ, (visitF g fuel n s).1.visited = Δ ++ s.visited) := by
  refine ⟨traverse_out_nodup, ?_⟩
  intro g fuel n s
  obtain ⟨Δ, _, h2⟩ := (visit_trace g fuel).1 n s
  exact ⟨Δ.reverse, h2⟩

/-- C10: the stable iteration order over the deduplicated children is
first-seen-edge order: the children of a node present in the module map are
exactly the distinct targets of its connection sequence in order of first
occurrence (`firstSeen`, the spec-modelled order), and the loop of line
69-71 recurses into the head child, completing it, before the later ones. -/
theorem c10_first_seen_order (g : Graph) (n : Node) (mgm : ModuleGraphModule)
    (hm : mapLookup g.moduleMap n = some mgm) :
    targetsOf g n =
      firstSeen ((optList mgm.outgoingConnections).map Connection.module) ∧
    ∀ (fuel : Nat) (c : Node) (cs : List Node) (s : St),
      stepList (fun c2 s2 => visitF g fuel c2 s2) (c :: cs) s =
        match visitF g fuel c s with
        | (s', Outcome.ok) => stepList (fun c2 s2 => visitF g fuel c2 s2) cs s'
        | r => r := by
  constructor
  · rw [show targetsOf g n = childrenOf mgm from
      (childrenOf_eq_targetsOf g n mgm hm).symm]
    rw [childrenOf, jsSet_eq_firstSeen]
  · intro fuel c cs s
    rfl

/-- C10, witness: the two connections of the root of `gMulti` to `nA`
collapse to the single child `nA`, in first-seen order. -/
theorem c10_witness :
    mapLookup gMulti.moduleMap Node.root = some mgmMulti ∧
    targetsOf gMulti Node.root =
      firstSeen ((optList mgmMulti.outgoingConnections).map Connection.module) :=
  ⟨by decide, (c10_first_seen_order gMulti Node.root mgmMulti (by decide)).1⟩

end ModuleGraphDFS
